import Mathlib

/-!
Verification of the `shit-land` stack-language compiler (`src/main.py`).

The development is a shallow embedding of `main.py`:

* `find_col`, `lex_line`, `lex_file` embed the scanner (lines 13-29).
  The Python `while` loops are realized with an explicit fuel argument
  (the fuel bound `ln.length + 1` is proved sufficient below via
  `lexGo_fuel`), so all scanner functions are executable `def`s.
* `parse_token_as_op`, `parse_file` embed the operation parser
  (lines 31-52); Python's `int(token)` is embedded as `pyIntParse`.
* `compile_ops` embeds the code generator (lines 54-120); exceptions are
  embedded with `Except`.
* `main_events` embeds the observable effects of `main` (lines 122-144).

Source text is embedded as `List Char`.  The character-class predicates
(`pyIsSpace` for `str.isspace`, `Char.isDigit` for the digits accepted by
`int`) are modelled on the ASCII range: the Unicode whitespace and
Unicode decimal digits that CPython additionally accepts lie outside the
model's effective alphabet.
-/

namespace Shitland

/-- Python's `str.isspace`, restricted to the ASCII/Latin-1 whitespace
characters (Unicode space characters are outside the model). -/
def pyIsSpace (c : Char) : Bool :=
  c == ' ' || c == '\t' || c == '\n' || c == '\x0b' || c == '\x0c' || c == '\r' ||
  c == '\x1c' || c == '\x1d' || c == '\x1e' || c == '\x1f' || c == '\x85'

/-- Fuel-indexed worker for `find_col` (`main.py` lines 13-16): advance
`start` while it is in bounds and the predicate rejects the character. -/
def find_colGo (ln : List Char) (p : Char → Bool) : Nat → Nat → Nat
  | 0, start => start
  | fuel + 1, start =>
      if h : start < ln.length then
        if p ln[start] then start else find_colGo ln p fuel (start + 1)
      else start

/-- `find_col(ln, start, predecate)` from `main.py` lines 13-16.  The
fuel `ln.length - start` dominates the number of loop iterations. -/
def find_col (ln : List Char) (start : Nat) (p : Char → Bool) : Nat :=
  find_colGo ln p (ln.length - start) start

/-- First column `>= col` holding a whitespace character (the `col_end`
variable of `lex_line`, `main.py` line 21). -/
def col_end (ln : List Char) (col : Nat) : Nat :=
  find_col ln col (fun x => pyIsSpace x)

/-- Start column of the next token after the token beginning at `col`
(`main.py` line 23). -/
def next_col (ln : List Char) (col : Nat) : Nat :=
  find_col ln (col_end ln col) (fun x => !pyIsSpace x)

/-- Fuel-indexed worker for the `while col < len(ln)` loop of
`lex_line` (`main.py` lines 20-23). -/
def lexGo (ln : List Char) : Nat → Nat → List (Nat × List Char)
  | 0, _ => []
  | fuel + 1, col =>
      if col < ln.length then
        (col, (ln.drop col).take (col_end ln col - col)) :: lexGo ln fuel (next_col ln col)
      else []

/-- The loop of `lex_line` started at column `col`.  The fuel
`ln.length + 1 - col` dominates the number of iterations because the
column strictly increases on every iteration (`lexGo_fuel` below). -/
def lexFrom (ln : List Char) (col : Nat) : List (Nat × List Char) :=
  lexGo ln (ln.length + 1 - col) col

/-- `lex_line(ln)` from `main.py` lines 18-23: the sequence of
`(column, token text)` pairs of the line. -/
def lex_line (ln : List Char) : List (Nat × List Char) :=
  lexFrom ln (find_col ln 0 (fun x => !pyIsSpace x))

/-- `lex_file` from `main.py` lines 25-29: tokens of all lines, each
tagged with file path, 0-based row and 0-based column, in file order. -/
def lex_file (file : String) (lines : List (List Char)) :
    List (String × Nat × Nat × List Char) :=
  lines.enum.flatMap (fun rl => (lex_line rl.2).map (fun ct => (file, rl.1, ct.1, ct.2)))

/-- The `Op` enumeration of `main.py` lines 4-8. -/
inductive Op where
  | OP_PUSH_INT
  | OP_PLUS
  | OP_MINUS
  | OP_DUMP
deriving DecidableEq, Repr

/-- Numeric value of an ASCII digit character. -/
def digitVal (c : Char) : Nat := c.toNat - 48

/-- Digit-run state machine of CPython's base-10 string-to-int
conversion, after the first digit: a single `_` may stand between two
digits, and every other accepted character is a digit.  `acc` is the
value of the digits consumed so far. -/
def digitRun : List Char → Nat → Option Nat
  | [], acc => some acc
  | c :: r, acc =>
      if c = '_' then
        match r with
        | [] => none
        | d :: r2 => if d.isDigit then digitRun r2 (10 * acc + digitVal d) else none
      else if c.isDigit then digitRun r (10 * acc + digitVal c) else none

/-- CPython digit-part parse: at least one digit, then `digitRun`. -/
def digitsParse : List Char → Option Nat
  | [] => none
  | c :: r => if c.isDigit then digitRun r (digitVal c) else none

/-- Strip leading and trailing whitespace, as CPython's int conversion
does before examining sign and digits. -/
def stripWs (l : List Char) : List Char :=
  ((l.dropWhile pyIsSpace).reverse.dropWhile pyIsSpace).reverse

/-- Modelled CPython `int(token)` for base 10 (the call on `main.py`
line 40): optional surrounding whitespace, an optional `+` or `-` sign,
then digits with optional single underscores between digits.  Returns
`none` where CPython raises `ValueError`. -/
def pyIntParse (t : List Char) : Option Int :=
  match stripWs t with
  | [] => none
  | c :: r =>
      if c = '+' then (digitsParse r).map (fun n => (n : Int))
      else if c = '-' then (digitsParse r).map (fun n => -(n : Int))
      else (digitsParse (c :: r)).map (fun n => (n : Int))

/-- `parse_token_as_op` from `main.py` lines 31-42.  A Python tuple
`(Op,)` or `(Op, int)` is embedded as `Op × List Int`; the raised
`Exception` is embedded as `Except.error` carrying the exception text. -/
def parse_token_as_op (token : List Char) : Except String (Op × List Int) :=
  if token = ['+'] then .ok (Op.OP_PLUS, [])
  else if token = ['-'] then .ok (Op.OP_MINUS, [])
  else if token = ['.'] then .ok (Op.OP_DUMP, [])
  else
    match pyIntParse token with
    | some v => .ok (Op.OP_PUSH_INT, [v])
    | none => .error ("Invalid token " ++ String.mk token)

/-- Whether an embedded call result is a success. -/
def exceptIsOk (e : Except String (Op × List Int)) : Bool :=
  match e with
  | .ok _ => true
  | .error _ => false

/-- The token loop of `parse_file` (`main.py` lines 45-52): append the
parsed operation, or print one diagnostic and return the empty list.
The second component collects the printed diagnostic lines. -/
def parseLoop : List (String × Nat × Nat × List Char) → List (Op × List Int) →
    List (Op × List Int) × List String
  | [], acc => (acc, [])
  | (f, row, col, tok) :: rest, acc =>
      match parse_token_as_op tok with
      | .ok op => parseLoop rest (acc ++ [op])
      | .error e =>
          ([], ["Error at " ++ f ++ ":" ++ toString (row + 1) ++ ":" ++ toString (col + 1) ++
                ": " ++ e])

/-- `parse_file` from `main.py` lines 44-52, over the file's lines.  The
first component is the returned operation list, the second the printed
diagnostic lines. -/
def parse_file (file : String) (lines : List (List Char)) :
    List (Op × List Int) × List String :=
  parseLoop (lex_file file lines) []

/-- The dynamically-typed head of an operation tuple as seen by
`compile_ops`: either a genuine `Op` member or some other Python object
(embedded by its `str()` rendering), which the `case _` arm rejects. -/
inductive PyHead where
  | op (o : Op)
  | foreign (s : String)
deriving DecidableEq, Repr

/-- The fixed assembly prologue emitted by `compile_ops` before the
operation loop (`main.py` lines 55-91): the `dump` decimal-output
subroutine followed by the `_start` entry point. -/
def compile_prologue : String :=
  "BITS 64\n" ++
  "segment .text\n" ++
  "dump:\n" ++
  "    mov     r9, -3689348814741910323\n" ++
  "    sub     rsp, 40\n" ++
  "    mov     BYTE [rsp+31], 10\n" ++
  "    lea     rcx, [rsp+30]\n" ++
  ".L2:\n" ++
  "    mov     rax, rdi\n" ++
  "    lea     r8, [rsp+32]\n" ++
  "    mul     r9\n" ++
  "    mov     rax, rdi\n" ++
  "    sub     r8, rcx\n" ++
  "    shr     rdx, 3\n" ++
  "    lea     rsi, [rdx+rdx*4]\n" ++
  "    add     rsi, rsi\n" ++
  "    sub     rax, rsi\n" ++
  "    add     eax, 48\n" ++
  "    mov     BYTE [rcx], al\n" ++
  "    mov     rax, rdi\n" ++
  "    mov     rdi, rdx\n" ++
  "    mov     rdx, rcx\n" ++
  "    sub     rcx, 1\n" ++
  "    cmp     rax, 9\n" ++
  "    ja      .L2\n" ++
  "    lea     rax, [rsp+32]\n" ++
  "    mov     edi, 1\n" ++
  "    sub     rdx, rax\n" ++
  "    xor     eax, eax\n" ++
  "    lea     rsi, [rsp+32+rdx]\n" ++
  "    mov     rdx, r8\n" ++
  "    mov     rax, 1\n" ++
  "    syscall\n" ++
  "    add     rsp, 40\n" ++
  "    ret\n" ++
  "global _start\n" ++
  "_start:\n"

/-- The fixed assembly epilogue emitted by `compile_ops` after the
operation loop (`main.py` lines 116-119): `exit(0)` by direct syscall. -/
def compile_epilogue : String :=
  "    ;; -- exit --\n" ++
  "    mov rax, 60\n" ++
  "    mov rdi, 0\n" ++
  "    syscall\n"

/-- One iteration of the operation loop of `compile_ops` (`main.py`
lines 92-115): the instruction text for one operation tuple, or the
exception raised for it.  `args[0]` of a `PushInt` with an empty
argument tuple raises `IndexError` in Python; an unrecognized head
raises `Exception("Invalid op %s" % op)`. -/
def compile_op (h : PyHead) (args : List Int) : Except String String :=
  match h with
  | .op Op.OP_PUSH_INT =>
      match args with
      | v :: _ =>
          .ok ("    ;; -- push " ++ toString v ++ " --\n" ++
               "    push " ++ toString v ++ "\n")
      | [] => .error "list index out of range"
  | .op Op.OP_PLUS =>
      .ok ("    ;; -- add --\n" ++
           "    pop rax\n" ++
           "    pop rbx\n" ++
           "    add rax, rbx\n" ++
           "    push rax\n")
  | .op Op.OP_MINUS =>
      .ok ("    ;; -- sub --\n" ++
           "    pop rax\n" ++
           "    pop rbx\n" ++
           "    sub rbx, rax\n" ++
           "    push rbx\n")
  | .op Op.OP_DUMP =>
      .ok ("    ;; -- dump --\n" ++
           "    pop rdi\n" ++
           "    call dump\n")
  | .foreign s => .error ("Invalid op " ++ s)

/-- The operation loop of `compile_ops`, threading the accumulated
output string; an exception aborts the loop. -/
def compileLoop : List (PyHead × List Int) → String → Except String String
  | [], out => .ok out
  | t :: rest, out =>
      match compile_op t.1 t.2 with
      | .ok s => compileLoop rest (out ++ s)
      | .error e => .error e

/-- `compile_ops` from `main.py` lines 54-120: prologue, one instruction
template per operation in order, epilogue. -/
def compile_ops (ops : List (PyHead × List Int)) : Except String String :=
  match compileLoop ops compile_prologue with
  | .ok out => .ok (out ++ compile_epilogue)
  | .error e => .error e

/-- View the statically-typed tuples produced by `parse_file` as the
dynamically-typed tuples consumed by `compile_ops`. -/
def liftOps (ops : List (Op × List Int)) : List (PyHead × List Int) :=
  ops.map (fun t => (PyHead.op t.1, t.2))

/-- The parse-then-compile pipeline on a source file's lines. -/
def full_compile (file : String) (lines : List (List Char)) : Except String String :=
  compile_ops (liftOps (parse_file file lines).1)

/-- The abstract Operation data model of the spec: the closed variant
set `{PushInt(v), Plus, Minus, Dump}`. -/
inductive Operation where
  | pushInt (v : Int)
  | plus
  | minus
  | dump
deriving DecidableEq, Repr

/-- The tuple `parse_token_as_op` builds for an operation
(`(OP_PUSH_INT, v)` or a one-element tuple). -/
def Operation.toPair : Operation → Op × List Int
  | .pushInt v => (Op.OP_PUSH_INT, [v])
  | .plus => (Op.OP_PLUS, [])
  | .minus => (Op.OP_MINUS, [])
  | .dump => (Op.OP_DUMP, [])

/-- The same tuple with its head viewed dynamically. -/
def Operation.toTuple (op : Operation) : PyHead × List Int :=
  (PyHead.op op.toPair.1, op.toPair.2)

/-- The instruction template `compile_ops` emits for one operation
(comment line included), exactly as concatenated by lines 95-113. -/
def Operation.asm : Operation → String
  | .pushInt v =>
      "    ;; -- push " ++ toString v ++ " --\n" ++
      "    push " ++ toString v ++ "\n"
  | .plus =>
      "    ;; -- add --\n" ++
      "    pop rax\n" ++
      "    pop rbx\n" ++
      "    add rax, rbx\n" ++
      "    push rax\n"
  | .minus =>
      "    ;; -- sub --\n" ++
      "    pop rax\n" ++
      "    pop rbx\n" ++
      "    sub rbx, rax\n" ++
      "    push rbx\n"
  | .dump =>
      "    ;; -- dump --\n" ++
      "    pop rdi\n" ++
      "    call dump\n"

/-- Concatenation of a list of strings. -/
def strConcat : List String → String
  | [] => ""
  | s :: r => s ++ strConcat r

/-- The x86-64 instructions appearing in the per-operation templates. -/
inductive Instr where
  | pushImm (v : Int)
  | popRax
  | popRbx
  | popRdi
  | addRaxRbx
  | subRbxRax
  | pushRax
  | pushRbx
  | callDump
deriving DecidableEq, Repr

/-- Assembly text of one instruction, exactly as emitted. -/
def Instr.render : Instr → String
  | .pushImm v => "    push " ++ toString v ++ "\n"
  | .popRax => "    pop rax\n"
  | .popRbx => "    pop rbx\n"
  | .popRdi => "    pop rdi\n"
  | .addRaxRbx => "    add rax, rbx\n"
  | .subRbxRax => "    sub rbx, rax\n"
  | .pushRax => "    push rax\n"
  | .pushRbx => "    push rbx\n"
  | .callDump => "    call dump\n"

/-- The instruction list of each operation's template (the template is
its comment line followed by these instructions; see
`Operation.asm_instrs`). -/
def Operation.instrs : Operation → List Instr
  | .pushInt v => [.pushImm v]
  | .plus => [.popRax, .popRbx, .addRaxRbx, .pushRax]
  | .minus => [.popRax, .popRbx, .subRbxRax, .pushRbx]
  | .dump => [.popRdi, .callDump]

/-- Two's-complement encoding of a pushed literal into an unsigned
64-bit machine word. -/
def wrapInt (v : Int) : Nat := (v % (2 ^ 64 : Int)).toNat

/-- 64-bit wrapping subtraction on unsigned machine words. -/
def wsub (a b : Nat) : Nat := (a + (2 ^ 64 - b % 2 ^ 64)) % 2 ^ 64

/-- Machine state for the generated code: the registers the templates
touch, the hardware stack, and the values printed by `dump` (the `dump`
subroutine's observable effect is printing the unsigned decimal value of
`rdi` and a newline; we record the printed value). -/
structure Machine where
  rax : Nat
  rbx : Nat
  rdi : Nat
  stack : List Nat
  output : List Nat
deriving DecidableEq, Repr

/-- Small-step semantics of the template instructions.  Popping an empty
stack has no defined behavior and is modelled as `none`. -/
def step (i : Instr) (m : Machine) : Option Machine :=
  match i with
  | .pushImm v => some { m with stack := wrapInt v :: m.stack }
  | .popRax =>
      match m.stack with
      | [] => none
      | x :: s => some { m with rax := x, stack := s }
  | .popRbx =>
      match m.stack with
      | [] => none
      | x :: s => some { m with rbx := x, stack := s }
  | .popRdi =>
      match m.stack with
      | [] => none
      | x :: s => some { m with rdi := x, stack := s }
  | .addRaxRbx => some { m with rax := (m.rax + m.rbx) % 2 ^ 64 }
  | .subRbxRax => some { m with rbx := wsub m.rbx m.rax }
  | .pushRax => some { m with stack := m.rax :: m.stack }
  | .pushRbx => some { m with stack := m.rbx :: m.stack }
  | .callDump => some { m with output := m.output ++ [m.rdi] }

/-- Run a list of instructions. -/
def run : List Instr → Machine → Option Machine
  | [], m => some m
  | i :: rest, m =>
      match step i m with
      | some m2 => run rest m2
      | none => none

/-- Observable effects of `main` (`main.py` lines 122-144). -/
inductive Event where
  | printed (s : String)
  | printedOps (ops : List (Op × List Int))
  | wroteFile (name : String) (content : String)
  | ranProcess (cmd : List String)
deriving DecidableEq, Repr

/-- The effect trace of `main` on a named file with the given lines
(`main.py` lines 122-144, after the `argv` length check): parse (with
its diagnostics), print the operation list, stop if it is empty,
otherwise compile, write `out.asm`, and run assembler, linker and the
produced binary. -/
def main_events (file : String) (lines : List (List Char)) : List Event :=
  let res := parse_file file lines
  res.2.map Event.printed ++ [Event.printedOps res.1] ++
    (if res.1.isEmpty then []
     else
       match compile_ops (liftOps res.1) with
       | .error e => [Event.printed e]
       | .ok out =>
           [Event.wroteFile "out.asm" out, Event.printed "Compiled to out.asm",
            Event.printed "Running nasm...", Event.ranProcess ["nasm", "-felf64", "out.asm"],
            Event.printed "Linking...", Event.ranProcess ["ld", "-o", "out", "out.o"],
            Event.printed "Running...", Event.ranProcess ["./out"]])

/-- Spec-level grammar of the underscore-separated digit tail: a `_`
must be followed by a digit, every other character must be a digit. -/
def undOk : List Char → Bool
  | [] => true
  | c :: r =>
      if c = '_' then
        match r with
        | [] => false
        | d :: r2 => d.isDigit && undOk r2
      else c.isDigit && undOk r

/-- Spec-level grammar of a digit part: nonempty, leading digit, valid
underscore tail. -/
def digitsOk : List Char → Bool
  | [] => false
  | c :: r => c.isDigit && undOk r

/-- Spec-level value of a digit part: base-10 fold over the digits,
underscores discarded. -/
def digitsVal (l : List Char) : Nat :=
  (l.filter (fun c => c != '_')).foldl (fun a c => 10 * a + digitVal c) 0

/-- Spec-level shape of a token accepted by CPython's base-10 int
conversion: optional surrounding whitespace, optional sign, digit part. -/
def pyIntShape (t : List Char) : Bool :=
  match stripWs t with
  | [] => false
  | c :: r =>
      if c = '+' then digitsOk r
      else if c = '-' then digitsOk r
      else digitsOk (c :: r)

/-- Spec-level value of such a token. -/
def pyIntValue (t : List Char) : Int :=
  match stripWs t with
  | [] => 0
  | c :: r =>
      if c = '+' then (digitsVal r : Int)
      else if c = '-' then -(digitsVal r : Int)
      else (digitsVal (c :: r) : Int)

/-- The integer-literal shape claimed by the spec: an optional leading
`-` followed by one or more digits, and nothing else. -/
def claimedIntTok : List Char → Bool
  | [] => false
  | c :: r =>
      if c = '-' then !r.isEmpty && r.all Char.isDigit
      else (c :: r).all Char.isDigit

/-- `isRun ln i t` says `t` is a maximal nonempty run of
non-whitespace characters of the line starting at 0-based column `i`:
`t` is the slice of `ln` at `[i, i + t.length)`, contains no
whitespace, and is delimited by the line start or a whitespace character
on the left and by the line end or a whitespace character on the right. -/
def isRun (ln : List Char) (i : Nat) (t : List Char) : Prop :=
  t ≠ [] ∧
  t = (ln.drop i).take t.length ∧
  (∀ c ∈ t, pyIsSpace c = false) ∧
  (i = 0 ∨ (ln[i - 1]?).any pyIsSpace = true) ∧
  (i + t.length = ln.length ∨ (ln[i + t.length]?).any pyIsSpace = true)

instance (ln : List Char) (i : Nat) (t : List Char) : Decidable (isRun ln i t) := by
  unfold isRun
  exact inferInstance

/-! ## Scanner lemmas -/

/-- Recursion equation of `find_col`: it matches the `while` loop of
`main.py` lines 14-15 step for step. -/
theorem find_col_unfold (ln : List Char) (start : Nat) (p : Char → Bool) :
    find_col ln start p =
      if h : start < ln.length then
        (if p ln[start] then start else find_col ln (start + 1) p)
      else start := by
  unfold find_col
  by_cases h : start < ln.length
  · have hf : ln.length - start = (ln.length - (start + 1)) + 1 := by omega
    rw [hf]
    simp only [find_colGo, h, dif_pos]
  · have hf : ln.length - start = 0 := by omega
    rw [hf]
    simp [find_colGo, h]

/-- `find_col` never moves backwards. -/
theorem find_col_ge (ln : List Char) (start : Nat) (p : Char → Bool) :
    start ≤ find_col ln start p := by
  rw [find_col_unfold]
  by_cases h : start < ln.length
  · simp only [h, dif_pos]
    by_cases hp : p ln[start] = true
    · simp [hp]
    · have hp' : p ln[start] = false := by simpa using hp
      simp only [hp', Bool.false_eq_true, if_false]
      have := find_col_ge ln (start + 1) p
      omega
  · simp [h]
termination_by ln.length - start

/-- `find_col` never moves past the end of the line. -/
theorem find_col_le (ln : List Char) (start : Nat) (p : Char → Bool)
    (h0 : start ≤ ln.length) : find_col ln start p ≤ ln.length := by
  rw [find_col_unfold]
  by_cases h : start < ln.length
  · simp only [h, dif_pos]
    by_cases hp : p ln[start] = true
    · simp [hp]; omega
    · have hp' : p ln[start] = false := by simpa using hp
      simp only [hp', Bool.false_eq_true, if_false]
      exact find_col_le ln (start + 1) p (by omega)
  · simp [h]; omega
termination_by ln.length - start

/-- Every column scanned past by `find_col` fails the predicate. -/
theorem find_col_not (ln : List Char) (start : Nat) (p : Char → Bool) (k : Nat)
    (h1 : start ≤ k) (h2 : k < find_col ln start p) :
    ∃ c, ln[k]? = some c ∧ p c = false := by
  rw [find_col_unfold] at h2
  by_cases h : start < ln.length
  · simp only [h, dif_pos] at h2
    by_cases hp : p ln[start] = true
    · simp [hp] at h2; omega
    · have hp' : p ln[start] = false := by simpa using hp
      simp only [hp', Bool.false_eq_true, if_false] at h2
      rcases Nat.eq_or_lt_of_le h1 with rfl | hlt
      · exact ⟨ln[start], List.getElem?_eq_getElem h, hp'⟩
      · exact find_col_not ln (start + 1) p k hlt h2
  · simp [h] at h2; omega
termination_by ln.length - start

/-- If `find_col` stops before the end of the line, the character there
satisfies the predicate. -/
theorem find_col_hit (ln : List Char) (start : Nat) (p : Char → Bool)
    (h : find_col ln start p < ln.length) :
    ∃ c, ln[find_col ln start p]? = some c ∧ p c = true := by
  by_cases hs : start < ln.length
  · by_cases hp : p ln[start] = true
    · have he : find_col ln start p = start := by
        rw [find_col_unfold]; simp [hs, hp]
      rw [he]
      exact ⟨ln[start], List.getElem?_eq_getElem hs, hp⟩
    · have hp' : p ln[start] = false := by simpa using hp
      have he : find_col ln start p = find_col ln (start + 1) p := by
        rw [find_col_unfold]; simp [hs, hp']
      rw [he] at h ⊢
      exact find_col_hit ln (start + 1) p h
  · have he : find_col ln start p = start := by
      rw [find_col_unfold]; simp [hs]
    rw [he] at h; omega
termination_by ln.length - start

/-- If the character at `start` fails the predicate, `find_col` moves
strictly forward. -/
theorem find_col_step (ln : List Char) (start : Nat) (p : Char → Bool)
    (h : start < ln.length) (hp : p ln[start] = false) :
    start + 1 ≤ find_col ln start p := by
  rw [find_col_unfold]
  simp only [h, dif_pos, hp, Bool.false_eq_true, if_false]
  exact find_col_ge ln (start + 1) p

/-- The start column of the next token is strictly beyond the current
token's start column. -/
theorem next_col_gt (ln : List Char) (col : Nat) (h : col < ln.length) :
    col < next_col ln col := by
  unfold next_col col_end
  by_cases hs : pyIsSpace ln[col] = true
  · have h1 : find_col ln col (fun x => pyIsSpace x) = col := by
      rw [find_col_unfold]; simp [h, hs]
    rw [h1]
    have h2 : col + 1 ≤ find_col ln col (fun x => !pyIsSpace x) :=
      find_col_step ln col _ h (by simp [hs])
    omega
  · have hs' : pyIsSpace ln[col] = false := by simpa using hs
    have h1 : col + 1 ≤ find_col ln col (fun x => pyIsSpace x) :=
      find_col_step ln col _ h hs'
    have h2 := find_col_ge ln (find_col ln col (fun x => pyIsSpace x)) (fun x => !pyIsSpace x)
    omega

/-- Any two sufficient fuels give `lexGo` the same result. -/
theorem lexGo_fuel (ln : List Char) (f1 : Nat) : ∀ (f2 col : Nat),
    ln.length - col < f1 → ln.length - col < f2 →
    lexGo ln f1 col = lexGo ln f2 col := by
  induction f1 with
  | zero => intro f2 col h1 h2; omega
  | succ k ih =>
    intro f2 col h1 h2
    cases f2 with
    | zero => omega
    | succ m =>
      by_cases hc : col < ln.length
      · simp only [lexGo, hc, if_true]
        have hgt := next_col_gt ln col hc
        have e := ih m (next_col ln col) (by omega) (by omega)
        rw [e]
      · simp [lexGo, hc]

/-- Recursion equation of the `lex_line` loop (`main.py` lines 20-23). -/
theorem lexFrom_unfold (ln : List Char) (col : Nat) :
    lexFrom ln col =
      if col < ln.length then
        (col, (ln.drop col).take (col_end ln col - col)) :: lexFrom ln (next_col ln col)
      else [] := by
  by_cases hc : col < ln.length
  · unfold lexFrom
    have h1 : ln.length + 1 - col = (ln.length - col) + 1 := by omega
    rw [h1]
    simp only [lexGo, hc, if_true]
    have hgt := next_col_gt ln col hc
    have hce : col_end ln col ≤ ln.length := find_col_le ln col _ (by omega)
    have hnl : next_col ln col ≤ ln.length := find_col_le ln (col_end ln col) _ hce
    rw [lexGo_fuel ln (ln.length - col) (ln.length + 1 - next_col ln col) (next_col ln col)
      (by omega) (by omega)]
  · unfold lexFrom
    cases hf : ln.length + 1 - col with
    | zero => simp [lexGo, hc]
    | succ k => simp [lexGo, hc]

/-- `col_end` never moves backwards. -/
theorem col_end_ge (ln : List Char) (col : Nat) : col ≤ col_end ln col :=
  find_col_ge ln col _

/-- `col_end` stays within the line. -/
theorem col_end_le (ln : List Char) (col : Nat) (h : col ≤ ln.length) :
    col_end ln col ≤ ln.length :=
  find_col_le ln col _ h

/-- A non-whitespace character at `col` puts `col_end` strictly past it. -/
theorem col_end_step (ln : List Char) (col : Nat) (h : col < ln.length)
    (hp : pyIsSpace ln[col] = false) : col + 1 ≤ col_end ln col :=
  find_col_step ln col _ h hp

/-- All characters of the run `[col, col_end)` are non-whitespace. -/
theorem col_end_not (ln : List Char) (col k : Nat) (h1 : col ≤ k)
    (h2 : k < col_end ln col) : ∃ c, ln[k]? = some c ∧ pyIsSpace c = false := by
  obtain ⟨c, hc1, hc2⟩ := find_col_not ln col (fun x => pyIsSpace x) k h1 h2
  exact ⟨c, hc1, by simpa using hc2⟩

/-- If `col_end` is inside the line, it sits on whitespace. -/
theorem col_end_hit (ln : List Char) (col : Nat) (h : col_end ln col < ln.length) :
    ∃ c, ln[col_end ln col]? = some c ∧ pyIsSpace c = true := by
  obtain ⟨c, hc1, hc2⟩ := find_col_hit ln col (fun x => pyIsSpace x) h
  exact ⟨c, hc1, by simpa using hc2⟩

/-- `next_col` never moves back past `col_end`. -/
theorem next_col_ge (ln : List Char) (col : Nat) : col_end ln col ≤ next_col ln col :=
  find_col_ge ln (col_end ln col) _

/-- `next_col` stays within the line. -/
theorem next_col_le (ln : List Char) (col : Nat) (h : col ≤ ln.length) :
    next_col ln col ≤ ln.length :=
  find_col_le ln (col_end ln col) _ (col_end_le ln col h)

/-- All characters of `[col_end, next_col)` are whitespace. -/
theorem next_col_not (ln : List Char) (col k : Nat) (h1 : col_end ln col ≤ k)
    (h2 : k < next_col ln col) : ∃ c, ln[k]? = some c ∧ pyIsSpace c = true := by
  obtain ⟨c, hc1, hc2⟩ := find_col_not ln (col_end ln col) (fun x => !pyIsSpace x) k h1 h2
  exact ⟨c, hc1, by simpa using hc2⟩

/-- The head character of a nonempty slice `t = ln[i : i + |t|]`. -/
theorem slice_head (ln : List Char) (i : Nat) (t : List Char) (hne : t ≠ [])
    (hslice : t = (ln.drop i).take t.length) :
    ∃ c, ln[i]? = some c ∧ c ∈ t := by
  obtain ⟨c0, r, ht⟩ := List.exists_cons_of_ne_nil hne
  refine ⟨c0, ?_, by rw [ht]; exact List.mem_cons_self c0 r⟩
  have h0 : t[0]? = some c0 := by rw [ht]; simp
  rw [hslice] at h0
  rw [List.getElem?_take] at h0
  have hlen : 0 < t.length := by rw [ht]; simp
  rw [if_pos hlen] at h0
  rw [List.getElem?_drop] at h0
  simpa using h0

/-- The token emitted at the head of a `lex_line` loop iteration is a
maximal non-whitespace run. -/
theorem head_isRun (ln : List Char) (col : Nat) (hc : col < ln.length)
    (hcur : pyIsSpace ln[col] = false)
    (hleft : col = 0 ∨ (ln[col - 1]?).any pyIsSpace = true) :
    isRun ln col ((ln.drop col).take (col_end ln col - col)) := by
  have hge : col + 1 ≤ col_end ln col := col_end_step ln col hc hcur
  have hle : col_end ln col ≤ ln.length := col_end_le ln col (by omega)
  have hlen : ((ln.drop col).take (col_end ln col - col)).length = col_end ln col - col := by
    simp [List.length_take, List.length_drop]
    omega
  refine ⟨?_, ?_, ?_, hleft, ?_⟩
  · intro hnil
    rw [hnil] at hlen
    simp at hlen
    omega
  · rw [hlen]
  · intro c hcmem
    obtain ⟨j, hj⟩ := List.mem_iff_getElem?.mp hcmem
    rw [List.getElem?_take] at hj
    by_cases hjlt : j < col_end ln col - col
    · rw [if_pos hjlt] at hj
      rw [List.getElem?_drop] at hj
      obtain ⟨c2, hc2, hp2⟩ := col_end_not ln col (col + j) (by omega) (by omega)
      rw [hj] at hc2
      have hcc : c = c2 := Option.some.inj hc2
      rw [hcc]
      exact hp2
    · rw [if_neg hjlt] at hj
      exact absurd hj (by simp)
  · rw [hlen]
    have hco : col + (col_end ln col - col) = col_end ln col := by omega
    rw [hco]
    by_cases hcl : col_end ln col < ln.length
    · right
      obtain ⟨c, hc1, hc2⟩ := col_end_hit ln col hcl
      rw [hc1]
      simp [hc2]
    · left; omega

/-- Columns reached by scanning for a non-whitespace character do not
hold whitespace. -/
theorem after_nonspace_inv (ln : List Char) (s : Nat) :
    ∀ c, ln[find_col ln s (fun x => !pyIsSpace x)]? = some c → pyIsSpace c = false := by
  intro c hc
  have hlt : find_col ln s (fun x => !pyIsSpace x) < ln.length := by
    rcases List.getElem?_eq_some.mp hc with ⟨h, _⟩
    exact h
  obtain ⟨c2, h1, h2⟩ := find_col_hit ln s (fun x => !pyIsSpace x) hlt
  rw [hc] at h1
  have hcc : c = c2 := Option.some.inj h1
  rw [hcc]
  simpa using h2

/-- If the next token starts inside the line, the character before its
start column is whitespace. -/
theorem before_token_space (ln : List Char) (col : Nat) (hc : col < ln.length)
    (hlt : next_col ln col < ln.length) :
    (ln[next_col ln col - 1]?).any pyIsSpace = true := by
  have hcele : col_end ln col ≤ ln.length := col_end_le ln col (by omega)
  have hge := next_col_ge ln col
  have hce_lt : col_end ln col < ln.length := by
    by_contra hge2
    have hend : next_col ln col = col_end ln col := by
      unfold next_col
      rw [find_col_unfold]
      simp [show ¬ (col_end ln col < ln.length) from hge2]
    omega
  obtain ⟨cs, hcs1, hcs2⟩ := col_end_hit ln col hce_lt
  have hstep : col_end ln col + 1 ≤ next_col ln col := by
    unfold next_col
    apply find_col_step ln (col_end ln col) _ hce_lt
    rcases List.getElem?_eq_some.mp hcs1 with ⟨hb, hbe⟩
    rw [hbe]
    simp [hcs2]
  obtain ⟨c, h1, h2⟩ := next_col_not ln col (next_col ln col - 1) (by omega) (by omega)
  rw [h1]
  simp [h2]

/-- Soundness of the `lex_line` loop: started at a column holding a
non-whitespace character (or at the line end) that is preceded by the
line start or whitespace, every emitted token is a maximal run at or
beyond the start column. -/
theorem lexFrom_sound (ln : List Char) (col : Nat)
    (hcur : ∀ c, ln[col]? = some c → pyIsSpace c = false)
    (hleft : col < ln.length → (col = 0 ∨ (ln[col - 1]?).any pyIsSpace = true)) :
    ∀ q ∈ lexFrom ln col, col ≤ q.1 ∧ isRun ln q.1 q.2 := by
  intro q hq
  rw [lexFrom_unfold] at hq
  by_cases hc : col < ln.length
  · rw [if_pos hc] at hq
    rcases List.mem_cons.mp hq with rfl | hq
    · exact ⟨le_refl _, head_isRun ln col hc (hcur _ (List.getElem?_eq_getElem hc)) (hleft hc)⟩
    · have hgt := next_col_gt ln col hc
      have ih := lexFrom_sound ln (next_col ln col)
        (after_nonspace_inv ln (col_end ln col))
        (fun hlt => Or.inr (before_token_space ln col hc hlt)) q hq
      exact ⟨by omega, ih.2⟩
  · rw [if_neg hc] at hq
    exact absurd hq (by simp)
termination_by ln.length - col
decreasing_by simp_wf; omega

/-- Every token of the `lex_line` loop starts at or beyond the start
column. -/
theorem lexFrom_lb (ln : List Char) (col : Nat) :
    ∀ q ∈ lexFrom ln col, col ≤ q.1 := by
  intro q hq
  rw [lexFrom_unfold] at hq
  by_cases hc : col < ln.length
  · rw [if_pos hc] at hq
    rcases List.mem_cons.mp hq with rfl | hq
    · exact le_refl _
    · have hgt := next_col_gt ln col hc
      have := lexFrom_lb ln (next_col ln col) q hq
      omega
  · rw [if_neg hc] at hq
    exact absurd hq (by simp)
termination_by ln.length - col
decreasing_by simp_wf; omega

/-- Tokens of the `lex_line` loop appear in strict left-to-right order:
each token ends at or before the start of the next. -/
theorem lexFrom_sorted (ln : List Char) (col : Nat) :
    (lexFrom ln col).Pairwise (fun a b => a.1 + a.2.length ≤ b.1) := by
  rw [lexFrom_unfold]
  by_cases hc : col < ln.length
  · rw [if_pos hc]
    have hgt := next_col_gt ln col hc
    have tail := lexFrom_sorted ln (next_col ln col)
    refine List.Pairwise.cons ?_ tail
    intro b hb
    have hlb := lexFrom_lb ln (next_col ln col) b hb
    have hce_ge : col ≤ col_end ln col := col_end_ge ln col
    have hce_le : col_end ln col ≤ ln.length := col_end_le ln col (by omega)
    have hnc_ge : col_end ln col ≤ next_col ln col := next_col_ge ln col
    have hlen : ((ln.drop col).take (col_end ln col - col)).length = col_end ln col - col := by
      simp [List.length_take, List.length_drop]
      omega
    show col + ((ln.drop col).take (col_end ln col - col)).length ≤ b.1
    rw [hlen]
    omega
  · rw [if_neg hc]
    exact List.Pairwise.nil
termination_by ln.length - col
decreasing_by simp_wf; omega

/-- Completeness of the `lex_line` loop: every maximal run starting at
or beyond the loop's current column is emitted. -/
theorem lexFrom_complete (ln : List Char) (col : Nat) :
    ∀ i t, isRun ln i t → col ≤ i → (i, t) ∈ lexFrom ln col := by
  intro i t hrun hci
  obtain ⟨hne, hslice, hnosp, hlb, hrb⟩ := hrun
  have htpos : 0 < t.length := List.length_pos.mpr hne
  have hitlen : i + t.length ≤ ln.length := by
    have hlc := congrArg List.length hslice
    simp [List.length_take, List.length_drop] at hlc
    omega
  have hilen : i < ln.length := by omega
  have hcol : col < ln.length := by omega
  have hgt2 := next_col_gt ln col hcol
  rw [lexFrom_unfold, if_pos hcol]
  have hce_ge : col ≤ col_end ln col := col_end_ge ln col
  have hce_le : col_end ln col ≤ ln.length := col_end_le ln col (by omega)
  by_cases hicase : i = col
  · subst hicase
    have hce_eq : col_end ln i = i + t.length := by
      by_contra hne2
      rcases Nat.lt_or_ge (col_end ln i) (i + t.length) with hlt | hge
      · have hcelt : col_end ln i < ln.length := by omega
        obtain ⟨cs, hcs1, hcs2⟩ := col_end_hit ln i hcelt
        have hidx : t[col_end ln i - i]? = ln[col_end ln i]? := by
          rw [hslice]
          rw [List.getElem?_take, if_pos (by omega), List.getElem?_drop]
          congr 1
          omega
        rw [hcs1] at hidx
        have hmem : cs ∈ t := List.mem_iff_getElem?.mpr ⟨_, hidx⟩
        have hns := hnosp cs hmem
        rw [hns] at hcs2
        exact absurd hcs2 (by simp)
      · have hgt3 : i + t.length < col_end ln i := by omega
        obtain ⟨c2, hc21, hc22⟩ := col_end_not ln i (i + t.length) (by omega) hgt3
        rcases hrb with hend | hsp
        · omega
        · rw [hc21] at hsp
          simp at hsp
          rw [hsp] at hc22
          exact absurd hc22 (by simp)
    have hsl : (ln.drop i).take (col_end ln i - i) = t := by
      rw [hce_eq]
      have hfix : i + t.length - i = t.length := by omega
      rw [hfix]
      exact hslice.symm
    rw [hsl]
    exact List.mem_cons_self _ _
  · have hgt : col < i := by omega
    have hnext_le : next_col ln col ≤ i := by
      by_contra hlt2
      push_neg at hlt2
      by_cases h3 : i < col_end ln col
      · rcases hlb with hi0 | hsp
        · omega
        · obtain ⟨c2, hc21, hc22⟩ := col_end_not ln col (i - 1) (by omega) (by omega)
          rw [hc21] at hsp
          simp at hsp
          rw [hsp] at hc22
          exact absurd hc22 (by simp)
      · push_neg at h3
        obtain ⟨c2, hc21, hc22⟩ := next_col_not ln col i h3 hlt2
        obtain ⟨ch, hch1, hch2⟩ := slice_head ln i t hne hslice
        rw [hc21] at hch1
        have hcc : c2 = ch := Option.some.inj hch1
        have hns := hnosp ch hch2
        rw [hcc, hns] at hc22
        exact absurd hc22 (by simp)
    have hrec := lexFrom_complete ln (next_col ln col) i t ⟨hne, hslice, hnosp, hlb, hrb⟩ hnext_le
    exact List.mem_cons.mpr (Or.inr hrec)
termination_by ln.length - col
decreasing_by simp_wf; omega

/-- C4: Scanner correctness of `lex_line`.  For every input line:
a line of whitespace only (or empty) yields zero tokens; every yielded
`(column, text)` pair is a maximal run of non-whitespace characters
whose text is the run and whose column is the run's 0-based start
offset (in particular no whitespace character appears in any token
text); every maximal run is yielded; and the yielded tokens are in
strict left-to-right order (so each run is yielded exactly once). -/
theorem lex_line_tokens (ln : List Char) :
    ((∀ c ∈ ln, pyIsSpace c = true) → lex_line ln = []) ∧
    (∀ q ∈ lex_line ln, isRun ln q.1 q.2) ∧
    (∀ i t, isRun ln i t → (i, t) ∈ lex_line ln) ∧
    (lex_line ln).Pairwise (fun a b => a.1 + a.2.length ≤ b.1) := by
  have hl : lex_line ln = lexFrom ln (find_col ln 0 (fun x => !pyIsSpace x)) := rfl
  have hsound : ∀ q ∈ lexFrom ln (find_col ln 0 (fun x => !pyIsSpace x)),
      find_col ln 0 (fun x => !pyIsSpace x) ≤ q.1 ∧ isRun ln q.1 q.2 := by
    apply lexFrom_sound
    · exact after_nonspace_inv ln 0
    · intro hlt
      by_cases h0 : find_col ln 0 (fun x => !pyIsSpace x) = 0
      · exact Or.inl h0
      · right
        obtain ⟨c, h1, h2⟩ := find_col_not ln 0 (fun x => !pyIsSpace x)
          (find_col ln 0 (fun x => !pyIsSpace x) - 1) (Nat.zero_le _) (by omega)
        rw [h1]
        simp at h2
        simp [h2]
  refine ⟨?_, ?_, ?_, ?_⟩
  · intro hws
    cases hlex : lex_line ln with
    | nil => rfl
    | cons q rest =>
      exfalso
      have hmem : q ∈ lexFrom ln (find_col ln 0 (fun x => !pyIsSpace x)) := by
        rw [← hl, hlex]
        exact List.mem_cons_self q rest
      obtain ⟨hne, hslice, hnosp, _, _⟩ := (hsound q hmem).2
      obtain ⟨c, hin⟩ := List.exists_mem_of_ne_nil _ hne
      have hcln : c ∈ ln := by
        have hmt : c ∈ (ln.drop q.1).take q.2.length := by rw [← hslice]; exact hin
        exact List.mem_of_mem_drop (List.mem_of_mem_take hmt)
      have hws2 := hws c hcln
      rw [hnosp c hin] at hws2
      exact absurd hws2 (by simp)
  · intro q hq
    rw [hl] at hq
    exact (hsound q hq).2
  · intro i t hrun
    have hge : find_col ln 0 (fun x => !pyIsSpace x) ≤ i := by
      by_contra hlt
      push_neg at hlt
      obtain ⟨c2, h1, h2⟩ := find_col_not ln 0 (fun x => !pyIsSpace x) i (Nat.zero_le _) hlt
      obtain ⟨hne, hslice, hnosp, _, _⟩ := hrun
      obtain ⟨ch, hch1, hch2⟩ := slice_head ln i t hne hslice
      rw [h1] at hch1
      have hcc : c2 = ch := Option.some.inj hch1
      have hns := hnosp ch hch2
      simp at h2
      rw [hcc, hns] at h2
      exact absurd h2 (by simp)
    rw [hl]
    exact lexFrom_complete ln (find_col ln 0 (fun x => !pyIsSpace x)) i t hrun hge
  · rw [hl]
    exact lexFrom_sorted ln (find_col ln 0 (fun x => !pyIsSpace x))

/-- Witness for C4 at concrete lines: the all-whitespace line of one
space yields no tokens, and the maximal run at column 1 of the line
holding a space and the letter a is yielded. -/
theorem lex_line_tokens_witness :
    lex_line [' '] = [] ∧ (1, ['a']) ∈ lex_line [' ', 'a'] :=
  ⟨(lex_line_tokens [' ']).1 (by decide),
   (lex_line_tokens [' ', 'a']).2.2.1 1 ['a'] (by decide)⟩

/-! ## Operation-parser lemmas -/

/-- Definitional unfolding of `digitRun` on a nonempty list. -/
theorem digitRun_cons (c : Char) (r : List Char) (acc : Nat) :
    digitRun (c :: r) acc =
      if c = '_' then
        (match r with
         | [] => none
         | d :: r2 => if d.isDigit then digitRun r2 (10 * acc + digitVal d) else none)
      else if c.isDigit then digitRun r (10 * acc + digitVal c) else none := by
  cases r <;> rfl

/-- Definitional unfolding of `undOk` on a nonempty list. -/
theorem undOk_cons (c : Char) (r : List Char) :
    undOk (c :: r) =
      if c = '_' then
        (match r with
         | [] => false
         | d :: r2 => d.isDigit && undOk r2)
      else c.isDigit && undOk r := by cases r <;> rfl

/-- `digitRun` succeeds exactly on valid underscore-separated digit
tails, and then computes the base-10 fold of the digits. -/
theorem digitRun_eq_aux : ∀ (n : Nat) (l : List Char), l.length ≤ n → ∀ acc : Nat,
    digitRun l acc =
      if undOk l then
        some ((l.filter (fun c => c != '_')).foldl (fun a c => 10 * a + digitVal c) acc)
      else none := by
  intro n
  induction n with
  | zero =>
    intro l hl acc
    have hnil : l = [] := List.eq_nil_of_length_eq_zero (by omega)
    subst hnil
    simp [digitRun, undOk]
  | succ k ih =>
    intro l hl acc
    cases l with
    | nil => simp [digitRun, undOk]
    | cons c r =>
      by_cases hc : c = '_'
      · subst hc
        cases r with
        | nil => simp [digitRun, undOk]
        | cons d r2 =>
          by_cases hd : d.isDigit = true
          · have hd' : (d != '_') = true := by
              have hne : d ≠ '_' := by rintro rfl; exact absurd hd (by decide)
              simpa using hne
            have ihr := ih r2 (by simp at hl ⊢; omega) (10 * acc + digitVal d)
            simp [digitRun_cons, undOk_cons, hd, hd', ihr, List.filter_cons]
          · simp [digitRun_cons, undOk_cons, hd]
      · by_cases hcd : c.isDigit = true
        · have hc' : (c != '_') = true := by simpa using hc
          have ihr := ih r (by simp at hl ⊢; omega) (10 * acc + digitVal c)
          simp [digitRun_cons, undOk_cons, hc, hcd, ihr, List.filter_cons, hc']
        · simp [digitRun_cons, undOk_cons, hc, hcd]

/-- `digitRun` characterization at the natural fuel. -/
theorem digitRun_eq (l : List Char) (acc : Nat) :
    digitRun l acc =
      if undOk l then
        some ((l.filter (fun c => c != '_')).foldl (fun a c => 10 * a + digitVal c) acc)
      else none :=
  digitRun_eq_aux l.length l (le_refl _) acc

/-- `digitsParse` succeeds exactly on valid digit parts and then
computes their value. -/
theorem digitsParse_eq (l : List Char) :
    digitsParse l = if digitsOk l then some (digitsVal l) else none := by
  cases l with
  | nil => simp [digitsParse, digitsOk]
  | cons c r =>
    by_cases hcd : c.isDigit = true
    · have hc' : (c != '_') = true := by
        have hne : c ≠ '_' := by rintro rfl; exact absurd hcd (by decide)
        simpa using hne
      simp [digitsParse, digitsOk, hcd, digitRun_eq, digitsVal, List.filter_cons, hc']
    · simp [digitsParse, digitsOk, hcd]


/-- The embedded CPython int conversion succeeds exactly on tokens of
the spec-level shape `pyIntShape`, and then returns `pyIntValue`. -/
theorem pyIntParse_eq (t : List Char) :
    pyIntParse t = if pyIntShape t = true then some (pyIntValue t) else none := by
  unfold pyIntParse pyIntShape pyIntValue
  cases hs : stripWs t with
  | nil => simp
  | cons c r =>
    by_cases h1 : c = '+'
    · subst h1
      simp [digitsParse_eq]
      by_cases hb : digitsOk r = true <;> simp [hb]
    · by_cases h2 : c = '-'
      · subst h2
        have hx : ¬(('-' : Char) = '+') := by decide
        simp [hx, digitsParse_eq]
        by_cases hb : digitsOk r = true <;> simp [hb]
      · simp [h1, h2, digitsParse_eq]
        by_cases hb : digitsOk (c :: r) = true <;> simp [hb]

/-- A failing classification is exactly the `Invalid token` error with
the token's text (`main.py` line 42). -/
theorem parse_token_error (tok : List Char)
    (h : exceptIsOk (parse_token_as_op tok) = false) :
    parse_token_as_op tok = .error ("Invalid token " ++ String.mk tok) := by
  unfold parse_token_as_op at h ⊢
  split_ifs at h ⊢ <;> try simp [exceptIsOk] at h
  cases hp : pyIntParse tok with
  | some v => rw [hp] at h; simp [exceptIsOk] at h
  | none => rfl

/-- C1 (amended): token classification of `parse_token_as_op`.  The
tokens `+`, `-`, `.` classify to `Plus`, `Minus`, `Dump` in that
priority order; any other token yields `PushInt(v)` exactly when its
text has the shape accepted by Python's base-10 int conversion
(optional surrounding whitespace, an optional leading `+` or `-`, then
digits optionally separated by single underscores) with `v` its signed
decimal value, and otherwise yields the `Invalid token` syntax error. -/
theorem parse_token_classification (t : List Char) (v : Int)
    (h1 : t ≠ ['+']) (h2 : t ≠ ['-']) (h3 : t ≠ ['.']) :
    (parse_token_as_op t = .ok (Op.OP_PUSH_INT, [v]) ↔
      pyIntShape t = true ∧ pyIntValue t = v) ∧
    (parse_token_as_op t = .error ("Invalid token " ++ String.mk t) ↔
      pyIntShape t = false) ∧
    parse_token_as_op ['+'] = .ok (Op.OP_PLUS, []) ∧
    parse_token_as_op ['-'] = .ok (Op.OP_MINUS, []) ∧
    parse_token_as_op ['.'] = .ok (Op.OP_DUMP, []) := by
  have hp := pyIntParse_eq t
  refine ⟨?_, ?_, rfl, rfl, rfl⟩
  · unfold parse_token_as_op
    rw [if_neg h1, if_neg h2, if_neg h3, hp]
    by_cases hs : pyIntShape t = true
    · simp [hs]
    · have hs' : pyIntShape t = false := by simpa using hs
      simp [hs, hs']
  · unfold parse_token_as_op
    rw [if_neg h1, if_neg h2, if_neg h3, hp]
    by_cases hs : pyIntShape t = true
    · simp [hs]
    · have hs' : pyIntShape t = false := by simpa using hs
      simp [hs, hs']

/-- Witness for C1 (amended) at the token text 42. -/
theorem parse_token_classification_witness :
    parse_token_as_op ['4', '2'] = .ok (Op.OP_PUSH_INT, [42]) :=
  ((parse_token_classification ['4', '2'] 42 (by decide) (by decide) (by decide)).1).mpr
    ⟨rfl, rfl⟩

/-- C1 (counterexample): the token text +5 is not of the spec's claimed
integer-literal form (optional leading minus then digits only), yet
`parse_token_as_op` accepts it as `PushInt(5)` rather than raising a
syntax error, because Python's int conversion also accepts a leading
plus sign. -/
theorem parse_token_cex :
    parse_token_as_op ['+', '5'] = .ok (Op.OP_PUSH_INT, [5]) ∧
    claimedIntTok ['+', '5'] = false :=
  ⟨rfl, rfl⟩

/-- ASCII digits are not whitespace. -/
theorem digit_not_space (c : Char) (h : c.isDigit = true) : pyIsSpace c = false := by
  obtain ⟨hl, hr⟩ : '0' ≤ c ∧ c ≤ '9' := by simpa [Char.isDigit] using h
  simp only [pyIsSpace, Bool.or_eq_false_iff, beq_eq_false_iff_ne, ne_eq]
  repeat' apply And.intro
  all_goals (rintro rfl; revert hl hr; decide)

/-- Dropping no whitespace leaves a space-free list unchanged. -/
theorem stripWs_nospace (l : List Char) (h : ∀ c ∈ l, pyIsSpace c = false) :
    stripWs l = l := by
  unfold stripWs
  have h1 : l.dropWhile pyIsSpace = l := by
    cases l with
    | nil => rfl
    | cons c r =>
      rw [List.dropWhile_cons, if_neg (by simp [h c (List.mem_cons_self c r)])]
  rw [h1]
  have h2 : l.reverse.dropWhile pyIsSpace = l.reverse := by
    cases hr : l.reverse with
    | nil => rfl
    | cons c r =>
      have hc : c ∈ l := by
        rw [← List.mem_reverse, hr]
        exact List.mem_cons_self c r
      rw [List.dropWhile_cons, if_neg (by simp [h c hc])]
  rw [h2, List.reverse_reverse]

/-- A list of digits is a valid underscore tail. -/
theorem undOk_all_digits : ∀ (l : List Char), (∀ c ∈ l, c.isDigit = true) → undOk l = true := by
  intro l
  induction l with
  | nil => intro _; rfl
  | cons c r ih =>
    intro h
    have hc := h c (List.mem_cons_self c r)
    have hne : ¬ c = '_' := by rintro rfl; exact absurd hc (by decide)
    rw [undOk_cons, if_neg hne]
    simp [hc, ih (fun d hd => h d (List.mem_cons_of_mem c hd))]

/-- The parser accepts every nonempty all-digit token as a `PushInt`
carrying its decimal value, with no bound on the value. -/
theorem parse_token_all_digits (d : List Char) (hne : d ≠ [])
    (hd : ∀ c ∈ d, c.isDigit = true) :
    parse_token_as_op d = .ok (Op.OP_PUSH_INT, [(digitsVal d : Int)]) := by
  have h1 : d ≠ ['+'] := by rintro rfl; exact absurd (hd '+' (by simp)) (by decide)
  have h2 : d ≠ ['-'] := by rintro rfl; exact absurd (hd '-' (by simp)) (by decide)
  have h3 : d ≠ ['.'] := by rintro rfl; exact absurd (hd '.' (by simp)) (by decide)
  unfold parse_token_as_op
  rw [if_neg h1, if_neg h2, if_neg h3]
  have hstrip : stripWs d = d := stripWs_nospace d (fun c hc => digit_not_space c (hd c hc))
  have hshape : pyIntShape d = true := by
    unfold pyIntShape
    rw [hstrip]
    cases d with
    | nil => exact absurd rfl hne
    | cons c r =>
      have hc := hd c (List.mem_cons_self c r)
      have hcp : ¬ c = '+' := by rintro rfl; exact absurd hc (by decide)
      have hcm : ¬ c = '-' := by rintro rfl; exact absurd hc (by decide)
      show (if c = '+' then digitsOk r
            else if c = '-' then digitsOk r else digitsOk (c :: r)) = true
      rw [if_neg hcp, if_neg hcm]
      simp [digitsOk, hc, undOk_all_digits r (fun x hx => hd x (List.mem_cons_of_mem c hx))]
  have hval : pyIntValue d = (digitsVal d : Int) := by
    unfold pyIntValue
    rw [hstrip]
    cases d with
    | nil => exact absurd rfl hne
    | cons c r =>
      have hc := hd c (List.mem_cons_self c r)
      have hcp : ¬ c = '+' := by rintro rfl; exact absurd hc (by decide)
      have hcm : ¬ c = '-' := by rintro rfl; exact absurd hc (by decide)
      show (if c = '+' then ((digitsVal r : Nat) : Int)
            else if c = '-' then -((digitsVal r : Nat) : Int)
            else ((digitsVal (c :: r) : Nat) : Int)) = ((digitsVal (c :: r) : Nat) : Int)
      rw [if_neg hcp, if_neg hcm]
  rw [pyIntParse_eq, if_pos hshape, hval]

/-- Folding the decimal step over `k` zero digits multiplies by `10^k`. -/
theorem foldl_zeros (k : Nat) : ∀ acc : Nat,
    (List.replicate k '0').foldl (fun a c => 10 * a + digitVal c) acc = acc * 10 ^ k := by
  induction k with
  | zero => intro acc; simp
  | succ n ih =>
    intro acc
    rw [List.replicate_succ, List.foldl_cons, ih]
    show (10 * acc + digitVal '0') * 10 ^ n = acc * 10 ^ (n + 1)
    have h0 : digitVal '0' = 0 := rfl
    rw [h0]
    ring

/-- C8 (amended): the Operation Parser imposes no width bound on
integer literals.  Every nonempty all-digit token is accepted as a
`PushInt` carrying exactly its decimal value, and for every bound `B`
there is an accepted token (a one followed by `B` zeros) whose `PushInt`
value exceeds `B`; in particular values outside the 64-bit signed range
are accepted and passed through to the assembly text. -/
theorem parse_token_unbounded :
    (∀ d : List Char, d ≠ [] → (∀ c ∈ d, c.isDigit = true) →
      parse_token_as_op d = .ok (Op.OP_PUSH_INT, [(digitsVal d : Int)])) ∧
    (∀ B : Nat, ∃ (t : List Char) (v : Int),
      parse_token_as_op t = .ok (Op.OP_PUSH_INT, [v]) ∧ (B : Int) < v) := by
  refine ⟨parse_token_all_digits, ?_⟩
  intro B
  have hd : ∀ c ∈ ('1' :: List.replicate B '0'), c.isDigit = true := by
    intro c hc
    rcases List.mem_cons.mp hc with rfl | hc
    · decide
    · rw [List.eq_of_mem_replicate hc]; decide
  have happ := parse_token_all_digits ('1' :: List.replicate B '0') (by simp) hd
  refine ⟨_, _, happ, ?_⟩
  have hfilter : ('1' :: List.replicate B '0').filter (fun c => c != '_') =
      '1' :: List.replicate B '0' := by
    rw [List.filter_eq_self]
    intro a ha
    rcases List.mem_cons.mp ha with rfl | ha
    · decide
    · rw [List.eq_of_mem_replicate ha]; decide
  have hv : digitsVal ('1' :: List.replicate B '0') = 10 ^ B := by
    unfold digitsVal
    rw [hfilter, List.foldl_cons, foldl_zeros]
    show (10 * 0 + digitVal '1') * 10 ^ B = 10 ^ B
    have h1 : digitVal '1' = 1 := rfl
    rw [h1]
    ring
  rw [hv]
  have hB : B < 10 ^ B := Nat.lt_pow_self (by norm_num) B
  exact_mod_cast hB

/-- Witness for C8 (amended): the token 7 parses to `PushInt(7)`, and
some accepted token has value greater than zero. -/
theorem parse_token_unbounded_witness :
    parse_token_as_op ['7'] = .ok (Op.OP_PUSH_INT, [7]) ∧
    ∃ (t : List Char) (v : Int),
      parse_token_as_op t = .ok (Op.OP_PUSH_INT, [v]) ∧ (0 : Int) < v :=
  ⟨parse_token_unbounded.1 ['7'] (by decide) (by decide),
   by exact_mod_cast parse_token_unbounded.2 0⟩

/-- C8 (counterexample): the token 9223372036854775808 (that is, 2^63)
is accepted by the Operation Parser, and the resulting `PushInt` value
is not representable as a 64-bit signed integer. -/
theorem parse_token_exceeds_word :
    parse_token_as_op "9223372036854775808".toList =
      .ok (Op.OP_PUSH_INT, [(9223372036854775808 : Int)]) ∧
    ¬((-(2 ^ 63) : Int) ≤ 9223372036854775808 ∧
      (9223372036854775808 : Int) < 2 ^ 63) := by
  constructor
  · rfl
  · decide

/-- Flattening of the diagnostic text around the exception message. -/
theorem str_flatten_invalid (X Y : String) :
    X ++ ": " ++ ("Invalid token " ++ Y) = X ++ ": Invalid token " ++ Y := by
  rw [String.append_assoc, String.append_assoc]
  congr 1

/-- `parseLoop` on all-classifiable tokens returns every parsed
operation in order and prints nothing. -/
theorem parseLoop_ok : ∀ (toks : List (String × Nat × Nat × List Char))
    (acc : List (Op × List Int)),
    (∀ t ∈ toks, exceptIsOk (parse_token_as_op t.2.2.2) = true) →
    parseLoop toks acc =
      (acc ++ toks.filterMap (fun t => (parse_token_as_op t.2.2.2).toOption), []) := by
  intro toks
  induction toks with
  | nil => intro acc _; simp [parseLoop]
  | cons t rest ih =>
    intro acc h
    obtain ⟨f, row, col, tok⟩ := t
    have ht := h _ (List.mem_cons_self _ _)
    cases hp : parse_token_as_op tok with
    | error e => rw [hp] at ht; simp [exceptIsOk] at ht
    | ok op =>
      simp only [parseLoop, hp]
      rw [ih (acc ++ [op]) (fun t2 ht2 => h t2 (List.mem_cons_of_mem _ ht2))]
      simp [List.filterMap_cons, hp, Except.toOption]

/-- `parseLoop` on a token list whose first failing token is `tok`
returns the empty list and exactly one diagnostic for `tok`. -/
theorem parseLoop_error : ∀ (pre : List (String × Nat × Nat × List Char)) (f : String)
    (r c : Nat) (tok : List Char) (post : List (String × Nat × Nat × List Char))
    (acc : List (Op × List Int)),
    (∀ t ∈ pre, exceptIsOk (parse_token_as_op t.2.2.2) = true) →
    exceptIsOk (parse_token_as_op tok) = false →
    parseLoop (pre ++ (f, r, c, tok) :: post) acc =
      ([], ["Error at " ++ f ++ ":" ++ toString (r + 1) ++ ":" ++ toString (c + 1) ++
            ": Invalid token " ++ String.mk tok]) := by
  intro pre
  induction pre with
  | nil =>
    intro f r c tok post acc _ herr
    have he := parse_token_error tok herr
    simp only [List.nil_append, parseLoop, he]
    rw [str_flatten_invalid]
  | cons t rest ih =>
    intro f r c tok post acc hpre herr
    obtain ⟨f2, r2, c2, tok2⟩ := t
    have ht := hpre _ (List.mem_cons_self _ _)
    cases hp : parse_token_as_op tok2 with
    | error e => rw [hp] at ht; simp [exceptIsOk] at ht
    | ok op =>
      simp only [List.cons_append, parseLoop, hp]
      exact ih f r c tok post (acc ++ [op])
        (fun t2 ht2 => hpre t2 (List.mem_cons_of_mem _ ht2)) herr

/-- C2: fail-fast error handling of `parse_file`.  If every token of
the file classifies, `parse_file` returns the full operation list in
token order with no diagnostic; on the first token that fails
classification it emits exactly one diagnostic line of the exact form
`Error at <file>:<row>:<col>: Invalid token <text>` with 1-based row
and column, processes no further tokens (the result does not depend on
the tokens after the failing one), and returns the empty Program. -/
theorem parse_file_fail_fast (file : String) (lines : List (List Char)) :
    ((∀ t ∈ lex_file file lines, exceptIsOk (parse_token_as_op t.2.2.2) = true) →
      parse_file file lines =
        ((lex_file file lines).filterMap (fun t => (parse_token_as_op t.2.2.2).toOption),
          [])) ∧
    (∀ (pre post : List (String × Nat × Nat × List Char)) (f : String) (r c : Nat)
        (tok : List Char),
      lex_file file lines = pre ++ (f, r, c, tok) :: post →
      (∀ t ∈ pre, exceptIsOk (parse_token_as_op t.2.2.2) = true) →
      exceptIsOk (parse_token_as_op tok) = false →
      parse_file file lines =
        ([], ["Error at " ++ f ++ ":" ++ toString (r + 1) ++ ":" ++ toString (c + 1) ++
              ": Invalid token " ++ String.mk tok])) := by
  constructor
  · intro h
    unfold parse_file
    rw [parseLoop_ok (lex_file file lines) [] h]
    simp
  · intro pre post f r c tok hdecomp hpre herr
    unfold parse_file
    rw [hdecomp, parseLoop_error pre f r c tok post [] hpre herr]

/-- Witness for C2: the file holding just the token abc produces the
empty Program and exactly the diagnostic of the specified form at row 1
and column 1; the file holding tokens 1 and 2 parses fully with no
diagnostic. -/
theorem parse_file_fail_fast_witness :
    parse_file "f" [String.toList "abc"] = ([], ["Error at f:1:1: Invalid token abc"]) ∧
    parse_file "g" [String.toList "1 2"] =
      ([(Op.OP_PUSH_INT, [1]), (Op.OP_PUSH_INT, [2])], []) := by
  constructor
  · exact (parse_file_fail_fast "f" [String.toList "abc"]).2 [] [] "f" 0 0
      (String.toList "abc") rfl (by decide) rfl
  · exact (parse_file_fail_fast "g" [String.toList "1 2"]).1 (by decide)

/-! ## Code-generator lemmas -/

/-- The per-operation lowering of `compile_ops` on a well-formed
operation tuple emits exactly the operation's template. -/
theorem compile_op_toTuple (op : Operation) :
    compile_op op.toTuple.1 op.toTuple.2 = .ok op.asm := by
  cases op <;> rfl

/-- The operation loop appends the templates of well-formed operations
in program order. -/
theorem compileLoop_ok (ops : List Operation) : ∀ acc : String,
    compileLoop (ops.map Operation.toTuple) acc =
      .ok (acc ++ strConcat (ops.map Operation.asm)) := by
  induction ops with
  | nil => intro acc; simp [compileLoop, strConcat, String.append_empty]
  | cons o rest ih =>
    intro acc
    simp only [List.map_cons, compileLoop, compile_op_toTuple]
    rw [ih (acc ++ o.asm)]
    simp [strConcat, String.append_assoc]

/-- C3: assembly framing of `compile_ops`.  For every Program (each
`PushInt` carrying its operand), the output is the fixed prologue (the
`dump` decimal-conversion subroutine followed by the `_start` entry
point), then the concatenation of the per-operation templates in
exactly program order, then the fixed epilogue, which invokes the exit
system call with exit code 0; prologue and epilogue are constants
independent of the program. -/
theorem compile_ops_framing (ops : List Operation) :
    compile_ops (ops.map Operation.toTuple) =
      .ok (compile_prologue ++ strConcat (ops.map Operation.asm) ++ compile_epilogue) ∧
    compile_epilogue =
      "    ;; -- exit --\n" ++ "    mov rax, 60\n" ++ "    mov rdi, 0\n" ++ "    syscall\n" := by
  constructor
  · unfold compile_ops
    rw [compileLoop_ok ops compile_prologue]
  · rfl

/-- C10: empty-Program code generation.  `compile_ops` applied to the
empty operation list does not fail: it returns exactly the fixed
prologue (dump subroutine and `_start` label) followed immediately by
the fixed exit-0 epilogue, a nonempty string with no per-operation
instructions in between. -/
theorem compile_ops_empty :
    compile_ops [] = .ok (compile_prologue ++ compile_epilogue) ∧
    compile_prologue ++ compile_epilogue ≠ "" ∧
    compile_ops [] =
      .ok (compile_prologue ++ strConcat (List.map Operation.asm []) ++ compile_epilogue) := by
  refine ⟨rfl, by decide, ?_⟩
  exact (compile_ops_framing []).1

/-- Every tuple `parse_token_as_op` accepts is the tuple of an
abstract Operation of the closed four-variant set. -/
theorem parse_token_shape (tok : List Char) (v : Op × List Int)
    (h : parse_token_as_op tok = .ok v) : ∃ op : Operation, v = op.toPair := by
  unfold parse_token_as_op at h
  split_ifs at h with h1 h2 h3
  · exact ⟨.plus, (Except.ok.inj h).symm⟩
  · exact ⟨.minus, (Except.ok.inj h).symm⟩
  · exact ⟨.dump, (Except.ok.inj h).symm⟩
  · cases hp : pyIntParse tok with
    | some n =>
      rw [hp] at h
      exact ⟨.pushInt n, (Except.ok.inj h).symm⟩
    | none =>
      rw [hp] at h
      exact absurd h (by simp)

/-- The tuples accumulated by `parseLoop` are tuples of abstract
Operations. -/
theorem parseLoop_shape : ∀ (toks : List (String × Nat × Nat × List Char))
    (acc : List (Op × List Int)),
    (∃ p : List Operation, acc = p.map Operation.toPair) →
    ∃ p : List Operation, (parseLoop toks acc).1 = p.map Operation.toPair := by
  intro toks
  induction toks with
  | nil => intro acc h; exact h
  | cons t rest ih =>
    intro acc h
    obtain ⟨f, row, col, tok⟩ := t
    cases hp : parse_token_as_op tok with
    | ok v =>
      simp only [parseLoop, hp]
      obtain ⟨op, rfl⟩ := parse_token_shape tok v hp
      obtain ⟨p, rfl⟩ := h
      exact ih (p.map Operation.toPair ++ [op.toPair]) ⟨p ++ [op], by simp⟩
    | error e =>
      simp only [parseLoop, hp]
      exact ⟨[], rfl⟩

/-- Every operation list returned by `parse_file` is the tuple image of
an abstract Program over the closed operation set. -/
theorem parse_file_shape (file : String) (lines : List (List Char)) :
    ∃ p : List Operation, (parse_file file lines).1 = p.map Operation.toPair :=
  parseLoop_shape (lex_file file lines) [] ⟨[], rfl⟩

/-- Lifting tuples of abstract Operations into the dynamically-typed
view taken by `compile_ops`. -/
theorem liftOps_toPair (p : List Operation) :
    liftOps (p.map Operation.toPair) = p.map Operation.toTuple := by
  unfold liftOps Operation.toTuple
  rw [List.map_map]
  rfl

/-- The operation loop aborts with the `Invalid op` diagnostic at the
first tuple whose head is outside the closed operation set. -/
theorem compileLoop_foreign : ∀ (pre : List Operation) (s : String) (args : List Int)
    (post : List (PyHead × List Int)) (acc : String),
    compileLoop (pre.map Operation.toTuple ++ (PyHead.foreign s, args) :: post) acc =
      .error ("Invalid op " ++ s) := by
  intro pre
  induction pre with
  | nil => intro s args post acc; rfl
  | cons o rest ih =>
    intro s args post acc
    simp only [List.map_cons, List.cons_append, compileLoop, compile_op_toTuple]
    exact ih s args post (acc ++ o.asm)

/-- C6: defensive internal-consistency failure.  `compile_ops` aborts
with the diagnostic naming the offending variant as soon as it meets an
operation tuple whose head is outside the closed set
`{OP_PUSH_INT, OP_PLUS, OP_MINUS, OP_DUMP}` (no matter what well-formed
operations precede it or what follows it); and for every operation list
actually produced by `parse_file` this failure branch is unreachable:
compilation of a parsed program always succeeds, because every tuple
`parse_file` returns is the tuple of an operation of the closed set. -/
theorem compile_closed_set :
    (∀ (pre : List Operation) (s : String) (args : List Int)
        (post : List (PyHead × List Int)),
      compile_ops (pre.map Operation.toTuple ++ (PyHead.foreign s, args) :: post) =
        .error ("Invalid op " ++ s)) ∧
    (∀ (file : String) (lines : List (List Char)),
      ∃ out, compile_ops (liftOps (parse_file file lines).1) = .ok out) := by
  constructor
  · intro pre s args post
    unfold compile_ops
    rw [compileLoop_foreign pre s args post compile_prologue]
  · intro file lines
    obtain ⟨p, hp⟩ := parse_file_shape file lines
    rw [hp, liftOps_toPair]
    exact ⟨_, (compile_ops_framing p).1⟩

/-- C5: Minus operand order.  The `Minus` operation lowers to the fixed
template that pops `rax` first (the value `b`, pushed last), then pops
`rbx` (the value `a`, pushed earlier), computes `sub rbx, rax` (that
is, `a - b`: the second-popped, earlier-pushed operand is the minuend)
and pushes the result; accordingly executing the templates generated
for the source `10 3 - .` pops 3 then 10 and prints `10 - 3 = 7`. -/
theorem minus_operand_order :
    (∀ args : List Int, compile_op (PyHead.op Op.OP_MINUS) args =
      .ok ("    ;; -- sub --\n" ++
           "    pop rax\n" ++
           "    pop rbx\n" ++
           "    sub rbx, rax\n" ++
           "    push rbx\n")) ∧
    Operation.asm Operation.minus =
      "    ;; -- sub --\n" ++ strConcat ((Operation.instrs Operation.minus).map Instr.render) ∧
    Operation.instrs Operation.minus = [.popRax, .popRbx, .subRbxRax, .pushRbx] ∧
    (∀ (r1 r2 r3 : Nat) (b a : Nat) (s out : List Nat),
      run (Operation.instrs Operation.minus) ⟨r1, r2, r3, b :: a :: s, out⟩ =
        some ⟨b, wsub a b, r3, wsub a b :: s, out⟩) ∧
    wsub 10 3 = 7 ∧
    (parse_file "input" [String.toList "10 3 - ."]).1 =
      [(Op.OP_PUSH_INT, [10]), (Op.OP_PUSH_INT, [3]), (Op.OP_MINUS, []), (Op.OP_DUMP, [])] ∧
    (run (([Operation.pushInt 10, Operation.pushInt 3, Operation.minus,
        Operation.dump]).flatMap Operation.instrs) ⟨0, 0, 0, [], []⟩).map Machine.output =
      some [7] := by
  refine ⟨fun args => rfl, rfl, rfl, fun r1 r2 r3 b a s out => rfl, rfl, rfl, rfl⟩

/-! ## Driver lemmas -/

/-- C7: degenerate-run behavior of the driver.  Whenever the parsed
operation list is empty (empty or all-whitespace source, or a failed
parse), `main` emits only the parse diagnostics and the operation-list
print: it does not call the code generator, writes no assembly file,
and runs no external process (assembler, linker, or produced binary). -/
theorem empty_program_no_artifacts (file : String) (lines : List (List Char))
    (h : (parse_file file lines).1 = []) :
    main_events file lines =
      ((parse_file file lines).2.map Event.printed ++ [Event.printedOps []]) ∧
    (∀ (n c : String), Event.wroteFile n c ∉ main_events file lines) ∧
    (∀ cmd : List String, Event.ranProcess cmd ∉ main_events file lines) := by
  have he : main_events file lines =
      (parse_file file lines).2.map Event.printed ++ [Event.printedOps []] := by
    simp only [main_events]
    rw [h]
    simp
  refine ⟨he, ?_, ?_⟩
  · intro n c hmem
    rw [he] at hmem
    rcases List.mem_append.mp hmem with hmem | hmem
    · obtain ⟨x, _, hx⟩ := List.mem_map.mp hmem
      exact Event.noConfusion hx
    · simp at hmem
  · intro cmd hmem
    rw [he] at hmem
    rcases List.mem_append.mp hmem with hmem | hmem
    · obtain ⟨x, _, hx⟩ := List.mem_map.mp hmem
      exact Event.noConfusion hx
    · simp at hmem

/-- Witness for C7 at the empty source file: the driver only prints the
empty operation list, and in particular runs no process. -/
theorem empty_program_no_artifacts_witness :
    main_events "f" [] = [Event.printedOps []] ∧
    (∀ cmd : List String, Event.ranProcess cmd ∉ main_events "f" []) :=
  ⟨by have h := (empty_program_no_artifacts "f" [] rfl).1; simpa using h,
   (empty_program_no_artifacts "f" [] rfl).2.2⟩

/-- C9: determinism of the pipeline.  The generated Assembly Text is a
pure function of the parsed operation list alone: parsing the same or
different sources (even under different file names) to the same
operation list yields byte-identical output, and compiling the same
source twice trivially agrees with itself. -/
theorem pipeline_deterministic (f1 f2 : String) (l1 l2 : List (List Char))
    (h : (parse_file f1 l1).1 = (parse_file f2 l2).1) :
    full_compile f1 l1 = full_compile f1 l1 ∧ full_compile f1 l1 = full_compile f2 l2 := by
  refine ⟨rfl, ?_⟩
  unfold full_compile
  rw [h]

/-- Witness for C9: the sources `1` and ` 1` under different file names
parse to the same operation list and compile to identical output. -/
theorem pipeline_deterministic_witness :
    full_compile "a" [String.toList "1"] = full_compile "b" [String.toList " 1"] :=
  (pipeline_deterministic "a" "b" [String.toList "1"] [String.toList " 1"] rfl).2

end Shitland
